import Mathlib

/-!
# A shallow embedding of the datachamo signal-analysis core

This file embeds, in Lean 4, the signal-processing pipeline of the
repository (`src/analysis/action_potential.py`,
`src/analysis/purple_integration_control.py`, `src/filtering/filtering.py`)
and proves or refutes the specification claims about it.

Conventions of the embedding:

* NumPy float arrays are modelled as `List ℚ` (exact rational arithmetic).
  Where a claim is specifically about the creation of non-finite values
  (NaN/Inf), values are modelled as `PyF := Option ℚ`, `none` standing for a
  non-finite float (NaN or ±Inf); this is enough because the claims under
  study only distinguish finite from non-finite results.
* `numpy.std` is an irrational square root; every use in the source occurs
  in a comparison `std ≤ prominence` with both sides non-negative, which is
  encoded equivalently as `variance ≤ prominence²`.
* Python `while` loops are written as structurally recursive functions with
  an explicit fuel argument so that every definition is executable by the
  kernel; callers pass a fuel that is an obvious upper bound on the number
  of iterations (each iteration advances the loop index by at least one
  towards the bound, so the given fuel is sufficient).
* Functions of external libraries (SciPy/NumPy) that the repository calls
  are embedded from their actual algorithms when a claim depends on their
  exact behaviour (`scipy.signal.find_peaks` with `prominence`/`distance`,
  `scipy.integrate.simps`, `scipy.fft`), and are taken as parameters of the
  embedded function when the claim under study is independent of their
  values (`savgol_filter`, `np.interp` inside `extract_add_filter`).
-/

namespace Datachamo

/-! ## Basic NumPy-style helpers over `List ℚ` -/

/-- `numpy.mean` over a list of rationals.  NumPy returns NaN on an empty
array (the empty case is never reached by the uses in this file's theorems);
here the empty mean is `0` by rational division `x / 0 = 0`. -/
def meanQ (l : List ℚ) : ℚ := l.sum / l.length

/-- `numpy.median`: sort ascending; for odd length the middle element, for
even length the average of the two middle elements.  Empty input (NaN in
NumPy) is `0` here; the uses under study never reach it. -/
def medianQ (l : List ℚ) : ℚ :=
  let s := l.insertionSort (· ≤ ·)
  let n := l.length
  if n % 2 = 1 then s.getD (n / 2) 0
  else (s.getD (n / 2 - 1) 0 + s.getD (n / 2) 0) / 2

/-- The population variance `mean ((x - mean x)²)`, i.e. the square of
`numpy.std` (`ddof = 0`). -/
def varQ (l : List ℚ) : ℚ := meanQ (l.map (fun x => (x - meanQ l) ^ 2))

/-- `numpy.diff`: successive differences. -/
def diffQ : List ℚ → List ℚ
  | a :: b :: rest => (b - a) :: diffQ (b :: rest)
  | _ => []

/-- Minimum of a list (`numpy.min` / built-in `min`); `0` on the empty list,
which the uses under study never reach. -/
def listMinQ : List ℚ → ℚ
  | [] => 0
  | a :: rest => rest.foldl min a

/-- Maximum of a list; `0` on the empty list. -/
def listMaxQ : List ℚ → ℚ
  | [] => 0
  | a :: rest => rest.foldl max a

/-- Python `int(q)` (truncation towards zero) on a rational. -/
def pyInt (q : ℚ) : ℤ := if 0 ≤ q then ⌊q⌋ else -⌊-q⌋

/-- The Python slice `l[a:b]` for natural bounds `a ≤ b` (clamped at the
list's end, as in Python). -/
def sliceQ (l : List α) (a b : ℕ) : List α := (l.drop a).take (b - a)

/-! ## `scipy.signal.find_peaks(x, prominence, distance)`

Embedded from SciPy's `_local_maxima_1d`, `_select_by_peak_distance` and
`_peak_prominences`; `find_peaks` applies the `distance` condition before
the `prominence` condition.  Out-of-range accesses are written `getD _ 0`;
every access performed by the algorithm is in range. -/

/-- Inner plateau scan of `_local_maxima_1d`: starting at `j`, advance while
`j < iMax` and `x[j]` equals the plateau value `v`; returns the first index
past the plateau.  Fuel bounds the iteration count (`iMax` suffices). -/
def findAhead (x : List ℚ) (iMax : ℕ) (v : ℚ) : ℕ → ℕ → ℕ
  | 0, j => j
  | fuel + 1, j =>
    if j < iMax ∧ x.getD j 0 = v then findAhead x iMax v fuel (j + 1) else j

/-- Main loop of `_local_maxima_1d`: `i` runs from `1` while `i < iMax`
(`iMax = len(x) - 1`); a sample strictly above its left neighbour starts a
candidate plateau `[i, ia)`; if the sample after the plateau is strictly
lower, the plateau midpoint `(i + (ia - 1)) / 2` is a local maximum and the
scan resumes after the plateau. -/
def lmAux (x : List ℚ) (iMax : ℕ) : ℕ → ℕ → List ℕ
  | 0, _ => []
  | fuel + 1, i =>
    if i < iMax then
      if x.getD (i - 1) 0 < x.getD i 0 then
        let ia := findAhead x iMax (x.getD i 0) iMax (i + 1)
        if x.getD ia 0 < x.getD i 0 then
          (i + (ia - 1)) / 2 :: lmAux x iMax fuel (ia + 1)
        else lmAux x iMax fuel (i + 1)
      else lmAux x iMax fuel (i + 1)
    else []

/-- `_local_maxima_1d`: midpoints of all strict local maxima (plateaus
allowed), in increasing order of index. -/
def localMaxima (x : List ℚ) : List ℕ := lmAux x (x.length - 1) x.length 1

/-- The descending scan of `_select_by_peak_distance`: clear `keep[k]` for
`k = j-1, j-2, …` while `peaks[j] - peaks[k] < distance`.  The argument `k`
is the scan position plus one, so `0` means the scan has passed the left
border. -/
def clearLeftAux (peaks : List ℕ) (pj d : ℤ) : ℕ → List Bool → List Bool
  | 0, keep => keep
  | k + 1, keep =>
    if pj - (peaks.getD k 0 : ℤ) < d then
      clearLeftAux peaks pj d k (keep.set k false)
    else keep

/-- The ascending scan of `_select_by_peak_distance`: clear `keep[k]` for
`k = j+1, j+2, …` while `peaks[k] - peaks[j] < distance`. -/
def clearRightAux (peaks : List ℕ) (pj d : ℤ) (m : ℕ) : ℕ → ℕ → List Bool → List Bool
  | 0, _, keep => keep
  | fuel + 1, k, keep =>
    if k < m then
      if (peaks.getD k 0 : ℤ) - pj < d then
        clearRightAux peaks pj d m fuel (k + 1) (keep.set k false)
      else keep
    else keep

/-- One iteration of `_select_by_peak_distance`'s main loop: if peak `j` is
still kept, clear every not-yet-inspected neighbour closer than `distance`
on both sides. -/
def processPeak (peaks : List ℕ) (d : ℤ) (keep : List Bool) (j : ℕ) : List Bool :=
  if keep.getD j false then
    let pj : ℤ := peaks.getD j 0
    clearRightAux peaks pj d peaks.length peaks.length (j + 1)
      (clearLeftAux peaks pj d j keep)
  else keep

/-- `np.argsort` of the priority array, encoded as the stable sort of the
positions by `(priority, position)`.  NumPy's default quicksort leaves the
order of equal priorities unspecified; every concrete input in this file has
pairwise distinct priorities, and the general theorems below hold for any
tie order. -/
def argsortQ (pri : List ℚ) : List ℕ :=
  (List.range pri.length).insertionSort fun i j =>
    pri.getD i 0 < pri.getD j 0 ∨ (pri.getD i 0 = pri.getD j 0 ∧ i ≤ j)

/-- `_select_by_peak_distance(peaks, priority, distance)`: visit peaks from
highest to lowest priority (`x[peak]` on the searched signal); each
surviving peak clears all neighbours closer than `distance`.  Returns the
keep mask. -/
def selectByPeakDistance (peaks : List ℕ) (pri : List ℚ) (d : ℤ) : List Bool :=
  (argsortQ pri).reverse.foldl (processPeak peaks d)
    (List.replicate peaks.length true)

/-- Boolean-mask indexing `peaks[keep]`. -/
def maskFilter : List ℕ → List Bool → List ℕ
  | [], _ => []
  | _, [] => []
  | p :: ps, b :: bs => if b then p :: maskFilter ps bs else maskFilter ps bs

/-- Leftward scan of `_peak_prominences`: from index `i` downwards while
`x[i] ≤ x[peak]`, accumulate the minimum of the scanned samples. -/
def leftMinScan (x : List ℚ) (xp : ℚ) : ℕ → ℚ → ℚ
  | 0, m => if x.getD 0 0 ≤ xp then min m (x.getD 0 0) else m
  | i + 1, m =>
    if x.getD (i + 1) 0 ≤ xp then leftMinScan x xp i (min m (x.getD (i + 1) 0))
    else m

/-- Rightward scan of `_peak_prominences`: from index `i` upwards while
`i ≤ n - 1` and `x[i] ≤ x[peak]`, accumulate the minimum. -/
def rightMinScan (x : List ℚ) (xp : ℚ) (n : ℕ) : ℕ → ℕ → ℚ → ℚ
  | 0, _, m => m
  | fuel + 1, i, m =>
    if i < n then
      if x.getD i 0 ≤ xp then rightMinScan x xp n fuel (i + 1) (min m (x.getD i 0))
      else m
    else m

/-- `_peak_prominences` for one peak (no `wlen` restriction):
`x[peak] - max(left minimum, right minimum)`. -/
def promOf (x : List ℚ) (p : ℕ) : ℚ :=
  let xp := x.getD p 0
  xp - max (leftMinScan x xp p xp) (rightMinScan x xp x.length x.length p xp)

/-- `scipy.signal.find_peaks(x, prominence=pmin, distance=d)` where
`pmin² = var` (the caller passes `np.std(..)`, whose square is the
population variance; `pmin ≤ prom ↔ var ≤ prom²` since both are
non-negative): local maxima, then the distance condition, then the
prominence condition `pmin ≤ prominence`. -/
def findPeaksPD (x : List ℚ) (var : ℚ) (d : ℤ) : List ℕ :=
  let ps := localMaxima x
  let keep := selectByPeakDistance ps (ps.map (x.getD · 0)) d
  (maskFilter ps keep).filter fun p => decide (var ≤ promOf x p ^ 2)

/-! ## `ActionPotentialProcessor` (src/analysis/action_potential.py)

The mutable processor instance is a record; each method is a state
transformer.  Fields the claims never touch (status callback, the
`integrals`/`averages` dictionaries) are omitted.  The analysis parameters
are those of `self.params` (updated before the pipeline runs; the claims
quantify over a fixed parameter record). -/

structure APState where
  data : List ℚ
  time_data : List ℚ
  n_cycles : ℕ
  t1 : ℚ
  t2 : ℚ
  V0 : ℚ
  V1 : ℚ
  V2 : ℚ
  cell_area_cm2 : ℚ
  processed_data : Option (List ℚ) := none
  baseline : Option ℚ := none
  cycles : List (List ℚ) := []
  cycle_times : List (List ℚ) := []
  cycle_indices : List (ℕ × ℕ) := []
  blue_curve : Option (List ℚ) := none
  magenta_curve : Option ℚ := none
  purple_hyperpol_curve : Option (List ℚ) := none
  purple_depol_curve : Option (List ℚ) := none
  orange_curve : Option (List ℚ) := none
  hyperpol_slice : Option (ℕ × ℕ) := none
  depol_slice : Option (ℕ × ℕ) := none
  deriving DecidableEq, Repr

/-- A fresh processor (`__init__` followed by `set_data(data, time_data)`)
with the given parameter record. -/
def mkState (data time_data : List ℚ) (n_cycles : ℕ) (t1 t2 V0 V1 V2 area : ℚ) :
    APState :=
  { data := data, time_data := time_data, n_cycles := n_cycles, t1 := t1,
    t2 := t2, V0 := V0, V1 := V1, V2 := V2, cell_area_cm2 := area }

/-- `baseline_correction`: baseline is the median of the first 1000 raw
samples; the processed trace is the raw trace minus the baseline. -/
def baselineCorrection (s : APState) : APState :=
  let b := medianQ (s.data.take 1000)
  { s with baseline := some b, processed_data := some (s.data.map (· - b)) }

/-- `t1_samples = int(params['t1'] * sampling_rate / 1000)` with
`sampling_rate = 1 / mean(diff(time_data))`, truncated towards zero and
clamped at `0` (`t1` and the sampling rate are positive in every use). -/
def t1Samples (s : APState) : ℕ :=
  (pyInt (s.t1 * (1 / meanQ (diffQ s.time_data)) / 1000)).toNat

/-- The window built around a detected trough at index `p`:
`[max(0, p - t1_samples//2), min(len, p + t1_samples*2))` (natural
subtraction is Python's `max(0, ·)`). -/
def cycleWindow (n t p : ℕ) : ℕ × ℕ := (p - t / 2, min n (p + t * 2))

/-- `find_cycles`: detect troughs of the processed trace
(`find_peaks(-processed, prominence=std(processed), distance=t1_samples)`),
take the first `n_cycles`, and append — without clearing — each trough's
window, its data slice, and its window-relative time to the instance lists.
-/
def findCycles (s : APState) : APState :=
  let pd := s.processed_data.getD []
  let t := t1Samples s
  let peaks := findPeaksPD (pd.map Neg.neg) (varQ pd) (t : ℤ)
  let chosen := peaks.take s.n_cycles
  let windows := chosen.map (cycleWindow pd.length t)
  { s with
    cycles := s.cycles ++ windows.map fun w => sliceQ pd w.1 w.2
    cycle_times := s.cycle_times ++ windows.map fun w =>
      (sliceQ s.time_data w.1 w.2).map (· - s.time_data.getD w.1 0)
    cycle_indices := s.cycle_indices ++ windows }

/-- The per-cycle baseline of `normalize_signal`: the mean of the medians of
each cycle's first 100 samples. -/
def nsBaseline (s : APState) : ℚ :=
  meanQ (s.cycles.map fun c => medianQ (c.take 100))

/-- The amplitude of `normalize_signal`: `min(np.min(cycle) for cycle in
cycles)`. -/
def nsMinVal (s : APState) : ℚ := listMinQ (s.cycles.map listMinQ)

/-- `normalize_signal`: nothing happens when no cycles exist; otherwise
rescale the processed trace by `|V1 - V0| / |min_val - baseline|` anchored
at `V0` and re-slice the cycles from the rescaled data (the source loops
`self.cycles[i] = processed[start:end]` over `enumerate(cycle_indices)`;
the three cycle lists always have equal length, being appended in lockstep
by `find_cycles`).  This is the exact-rational model: the degenerate
divisor `min_val - baseline = 0` gives scale `0` here (rational
`x / 0 = 0`) where Python float division gives `inf`;
`normalizeSignalProcessedF` below models that float behaviour. -/
def normalizeSignal (s : APState) : APState :=
  if s.cycles = [] then s
  else
    let b := nsBaseline s
    let scale := |s.V1 - s.V0| / |nsMinVal s - b|
    let pd := (s.processed_data.getD []).map fun x => (x - b) * scale + s.V0
    { s with
      processed_data := some pd
      cycles := s.cycle_indices.map fun w => sliceQ pd w.1 w.2 }

/-- A Python float that may be non-finite: `none` is NaN or ±Inf. -/
abbrev PyF : Type := Option ℚ

/-- Lift a binary rational operation to `PyF` (non-finite operands
propagate; finite IEEE arithmetic on the values in this file is exact). -/
def pyBin (f : ℚ → ℚ → ℚ) : PyF → PyF → PyF
  | some a, some b => some (f a b)
  | _, _ => none

/-- Float division: a zero divisor yields a non-finite result (±Inf, or NaN
for `0/0`), as NumPy float division does (a warning, not an exception). -/
def pyDiv : PyF → PyF → PyF
  | some a, some b => if b = 0 then none else some (a / b)
  | _, _ => none

/-- The processed trace produced by `normalize_signal` under Python float
semantics: identical to `normalizeSignal` except that the division defining
the scale factor is float division, so a degenerate `|min_val - baseline| =
0` makes the scale factor non-finite and every rescaled sample non-finite.
-/
def normalizeSignalProcessedF (s : APState) : List PyF :=
  if s.cycles = [] then (s.processed_data.getD []).map some
  else
    let b := nsBaseline s
    let scale := pyDiv (some |s.V1 - s.V0|) (some |nsMinVal s - b|)
    (s.processed_data.getD []).map fun x =>
      pyBin (· + ·) (pyBin (· * ·) (some (x - b)) scale) (some s.V0)

/-- `calculate_blue_curve`: `processed_data[28:828]` when processed data
exists. -/
def calculateBlueCurve (s : APState) : APState :=
  match s.processed_data with
  | some pd => { s with blue_curve := some (sliceQ pd 28 828) }
  | none => s

/-- `calculate_magenta_curve`: the mean of the blue curve's first
200 samples. -/
def calculateMagentaCurve (s : APState) : APState :=
  match s.blue_curve with
  | some bc => { s with magenta_curve := some (meanQ (bc.take 200)) }
  | none => s

/-- `calculate_purple_curves`: when the processed trace is longer than 1227
samples, store the fixed slices `(828, 1028)` (depolarisation) and
`(1028, 1227)` (hyperpolarisation) and cut both curves out of the processed
trace; otherwise (including a missing processed trace) set both curves and
both stored slices to `None` (with a logged reason in the source). -/
def calculatePurpleCurves (s : APState) : APState :=
  match s.processed_data with
  | some pd =>
    if 1227 < pd.length then
      { s with
        depol_slice := some (828, 1028)
        hyperpol_slice := some (1028, 1227)
        purple_hyperpol_curve := some (sliceQ pd 1028 1227)
        purple_depol_curve := some (sliceQ pd 828 1028) }
    else
      { s with
        purple_hyperpol_curve := none, purple_depol_curve := none
        hyperpol_slice := none, depol_slice := none }
  | none =>
    { s with
      purple_hyperpol_curve := none, purple_depol_curve := none
      hyperpol_slice := none, depol_slice := none }

/-! ## `scipy.integrate.simps` -/

/-- The composite-Simpson sum of `_basic_simpson(y, start, stop, x)` over
index pairs `i = start, start+2, …` with `i < stop`, for sample spacings
`h0 = x[i+1]-x[i]`, `h1 = x[i+2]-x[i+1]`.  Fuel bounds the iterations
(`stop` suffices). -/
def basicSimpsAux (y x : List ℚ) (stop : ℕ) : ℕ → ℕ → ℚ
  | 0, _ => 0
  | fuel + 1, i =>
    if i < stop then
      let h0 := x.getD (i + 1) 0 - x.getD i 0
      let h1 := x.getD (i + 2) 0 - x.getD (i + 1) 0
      (h0 + h1) / 6 *
          (y.getD i 0 * (2 - h1 / h0) +
            y.getD (i + 1) 0 * ((h0 + h1) ^ 2 / (h0 * h1)) +
            y.getD (i + 2) 0 * (2 - h0 / h1)) +
        basicSimpsAux y x stop fuel (i + 2)
    else 0

/-- `scipy.integrate.simps(y, x)` with the default `even='avg'`: for an odd
number of samples the plain composite Simpson rule; for an even number the
average of "Simpson on all but the last interval plus a trapezoid there"
and "a trapezoid on the first interval plus Simpson on the rest".  (For the
degenerate two-sample case the Simpson parts are empty and the result is
the trapezoid average, matching SciPy.) -/
def simps (y x : List ℚ) : ℚ :=
  let N := y.length
  if N % 2 = 0 then
    let lastTrap := (x.getD (N - 1) 0 - x.getD (N - 2) 0) *
      (y.getD (N - 1) 0 + y.getD (N - 2) 0) / 2
    let firstTrap := (x.getD 1 0 - x.getD 0 0) * (y.getD 1 0 + y.getD 0 0) / 2
    (basicSimpsAux y x (N - 3) N 0 + basicSimpsAux y x (N - 2) N 1) / 2 +
      (lastTrap + firstTrap) / 2
  else basicSimpsAux y x (N - 2) N 0

/-- The result record of `calculate_integral`.  The source formats the two
numbers into the display strings `"… pA·ms"` and `"… μF/cm²"`; the embedding
keeps the numeric values those strings are formatted from. -/
inductive IntegralResult where
  | noCycles
  | ok (avgIntegral : ℚ) (capacitancePerArea : ℚ) (cycleIndices : List (ℕ × ℕ))
  deriving DecidableEq, Repr

/-- The average of the per-cycle Simpson integrals `simps(cycle,
cycle_time)` — the raw quantity `calculate_integral` reports (cycle data in
pA against cycle time in the time base's own unit, with no unit
conversion). -/
def rawAvgIntegral (s : APState) : ℚ :=
  meanQ (List.zipWith simps s.cycles s.cycle_times)

/-- `calculate_integral`: with no cycles, the `'No cycles found'` result;
otherwise the average per-cycle Simpson integral, and the capacitance
`avg_integral / (V1 - V0) / cell_area_cm2` computed directly on the raw
values (no pA→A or mV→V conversion, no absolute value).  The source's
`except` branch (returning error strings) only fires if SciPy itself
raises, which needs a cycle/time length mismatch that the lockstep
`find_cycles` lists never produce. -/
def calculateIntegral (s : APState) : IntegralResult :=
  if s.cycles = [] then .noCycles
  else
    let avg := rawAvgIntegral s
    .ok avg (avg / (s.V1 - s.V0) / s.cell_area_cm2) s.cycle_indices

/-! ## `analyze` -/

/-- The Python exceptions the pipeline can raise. -/
inductive PyErr where
  | attributeError
  | valueError
  deriving DecidableEq, Repr

/-- The dictionary `analyze` would return on success. -/
structure AnalyzeOutput where
  orange : Option (List ℚ)
  blue : Option (List ℚ)
  magenta : Option ℚ
  purple_hyperpol : Option (List ℚ)
  purple_depol : Option (List ℚ)
  time : List ℚ
  processed : Option (List ℚ)
  integral_info : IntegralResult
  deriving DecidableEq

/-- The `try:` body of `analyze`: baseline correction, cycle detection,
normalisation, then the derived-curve step.  That step begins with
`self.calculate_orange_curve_logic()` — a method that is called here but
defined nowhere in the repository, so Python raises `AttributeError` before
any curve or integral is computed.  The pair returned is the instance state
at the point the body finished or raised, together with the outcome. -/
def analyzeRun (s : APState) : APState × Except PyErr AnalyzeOutput :=
  let s3 := normalizeSignal (findCycles (baselineCorrection s))
  match s3.processed_data with
  | none => (s3, .error .valueError)
  | some _ => (s3, .error .attributeError)

/-- `analyze`: run the pipeline; any exception is caught, logged, and turned
into a bare `None` return value (`except Exception: … return None`). -/
def analyze (s : APState) : APState × Option AnalyzeOutput :=
  let r := analyzeRun s
  (r.1, match r.2 with | .ok o => some o | .error _ => none)

/-- The outcome of the `try:` body as an `Option PyErr` (for stating which
exception, if any, the body raised). -/
def exceptErr : Except PyErr AnalyzeOutput → Option PyErr
  | .error e => some e
  | .ok _ => none

/-! ## `PurpleIntegrationController`
(src/analysis/purple_integration_control.py)

The integration points live in the `integration_points` dictionary; indices
are Python ints (`ℤ`), `-1` being the sentinel for "last valid sample".
`maxIdx` abbreviates the window's last index: validation reads it as
`len(modified_<curve>) - 1` and resolution as `len(processor.time) - 1`,
two arrays the controller requires to have equal length (`_update_marker`
rejects the state otherwise), so a single bound models both. -/

/-- `_update_integration_point` for a start point: the supplied index is
clamped into `[0, effective end]`, where the effective end resolves the
stored end's `-1` sentinel to `maxIdx`. -/
def validateStartPoint (new currentEndStored maxIdx : ℤ) : ℤ :=
  let effectiveEnd := if currentEndStored ≠ -1 then currentEndStored else maxIdx
  min (max 0 new) effectiveEnd

/-- `_update_integration_point` for an end point: `-1` is kept as the
sentinel; any other supplied index is clamped into
`[current start, maxIdx]`. -/
def validateEndPoint (new currentStart maxIdx : ℤ) : ℤ :=
  if new = -1 then -1 else min (max currentStart new) maxIdx

/-- `get_effective_integration_indices` for one polarity: resolve the `-1`
sentinel to `maxIdx`, clamp the end from above by `maxIdx`, clamp the start
from below by `0` and from above by the resolved end. -/
def effectiveIndices (storedStart storedEnd maxIdx : ℤ) : ℤ × ℤ :=
  let es := max 0 storedStart
  let ee := if storedEnd ≠ -1 then storedEnd else maxIdx
  let ee2 := min maxIdx ee
  (min es ee2, ee2)

/-! ## `apply_fft_filter` (src/filtering/filtering.py)

`scipy.fft.fft`/`ifft` with NumPy's default normalisation:
`X_k = ∑_j x_j e^{-2πi jk/n}` and `x_j = (1/n) ∑_k X_k e^{2πi jk/n}`.
The transform is transcendental, so this part of the embedding is
noncomputable; the concrete instances in the theorems below are evaluated
symbolically. -/

/-- Maximum of a list of reals (`np.max`); `0` on the empty list (the uses
below apply it to non-empty magnitude lists, whose entries are
non-negative). -/
def listMaxR : List ℝ → ℝ
  | [] => 0
  | a :: rest => rest.foldl max a

/-- The discrete Fourier transform (`scipy.fft.fft`). -/
noncomputable def dft (x : List ℂ) : List ℂ :=
  (List.range x.length).map fun k =>
    ∑ j ∈ Finset.range x.length,
      x.getD j 0 * Complex.exp (-(2 * Real.pi * Complex.I) * j * k / x.length)

/-- The inverse transform (`scipy.fft.ifft`). -/
noncomputable def idft (X : List ℂ) : List ℂ :=
  (List.range X.length).map fun j =>
    (∑ k ∈ Finset.range X.length,
        X.getD k 0 * Complex.exp (2 * Real.pi * Complex.I * j * k / X.length)) /
      X.length

/-- `max_magnitude = np.max(np.abs(fft_data))`. -/
noncomputable def maxMagnitude (data : List ℝ) : ℝ :=
  listMaxR ((dft (data.map Complex.ofReal)).map Complex.abs)

/-- `filtered_fft = fft_data * (magnitudes > threshold * max_magnitude)`:
each bin is multiplied by its boolean mask value (1 or 0). -/
noncomputable def maskedSpectrum (data : List ℝ) (threshold : ℝ) : List ℂ :=
  (dft (data.map Complex.ofReal)).map fun z =>
    z * (if threshold * maxMagnitude data < Complex.abs z then 1 else 0)

/-- `apply_fft_filter(data, threshold)`: mask the spectrum and return the
real part of the inverse transform.  No frequency bin — the DC bin
included — receives special treatment. -/
noncomputable def applyFFTFilter (data : List ℝ) (threshold : ℝ) : List ℝ :=
  (idft (maskedSpectrum data threshold)).map Complex.re

/-! ## `extract_add_filter` (src/filtering/filtering.py)

The peak detector (`find_peaks` with `prominence` and `width` conditions),
the Savitzky–Golay filter and `np.interp` are external SciPy/NumPy routines;
they enter the embedding as parameters (`detect` returns the peak indices
and their widths; `savgolP wl po` is `savgol_filter(·, wl, po)`; `interpF`
is `np.interp` on index arrays).  The claim under study is conditional on
the detector's output and independent of the two interpolators' values. -/

/-- `event_mask[left:right] = True` for one detected peak:
`left = max(0, int(idx - width))`, `right = min(n, int(idx + width + 1))`.
-/
def addRegionToMask (n : ℕ) (mask : List Bool) (pw : List (ℕ × ℚ)) : List Bool :=
  pw.foldl
    (fun m p =>
      let l := (pyInt ((p.1 : ℚ) - p.2)).toNat
      let r := min n (pyInt ((p.1 : ℚ) + p.2 + 1)).toNat
      m.mapIdx fun i v => if l ≤ i ∧ i < r then true else v)
    mask

/-- Indices at which the mask holds the value `b` (`np.where`). -/
def maskIdx (mask : List Bool) (b : Bool) : List ℕ :=
  (List.range mask.length).filter fun i => mask.getD i false == b

/-- Boolean-mask selection `l[mask]`. -/
def maskSelect (l : List ℚ) (mask : List Bool) : List ℚ :=
  (l.zip mask).filterMap fun p => if p.2 then some p.1 else none

/-- Fancy-index assignment `l[idxs] = vals`. -/
def scatterAt (l : List ℚ) (idxs : List ℕ) (vals : List ℚ) : List ℚ :=
  (idxs.zip vals).foldl (fun acc p => acc.set p.1 p.2) l

/-- `np.mean` of a selection: NaN (`none`) on an empty selection, as NumPy
warns-and-returns. -/
def pyMeanF (l : List ℚ) : PyF :=
  if l.isEmpty then none else some (meanQ l)

/-- `extract_add_filter(data, window_length, polyorder, …)`: detect peak and
valley event regions, interpolate the baseline across them, smooth the
baseline, add the events back minus the mean of the original event samples,
and blend a 5-sample window at each event edge.  The subtracted mean is the
mean of an *empty* selection — NaN — whenever no event was detected. -/
def extractAddFilter (detect : List ℚ → List ℕ × List ℚ)
    (savgolP : ℕ → ℕ → List PyF → List PyF)
    (interpF : List ℕ → List ℕ → List ℚ → List ℚ)
    (window_length polyorder : ℕ) (data : List ℚ) : List PyF :=
  let n := data.length
  let pk := detect data
  let vl := detect (data.map Neg.neg)
  let mask := addRegionToMask n (addRegionToMask n (List.replicate n false)
    (pk.1.zip pk.2)) (vl.1.zip vl.2)
  let events := List.zipWith (fun m x => if m then x else 0) mask data
  let baseline := scatterAt data (maskIdx mask true)
    (interpF (maskIdx mask true) (maskIdx mask false) (maskSelect data (mask.map (!·))))
  let filteredBaseline := savgolP window_length polyorder (baseline.map some)
  let corr := pyMeanF (maskSelect baseline mask)
  let filtered := List.zipWith
    (fun fb e => pyBin (· - ·) (pyBin (· + ·) fb (some e)) corr)
    filteredBaseline events
  let edges := (List.range (n - 1)).filter fun i =>
    mask.getD i false != mask.getD (i + 1) false
  edges.foldl
    (fun fd edge =>
      if 1 < edge ∧ edge < n - 2 then
        let l := edge - 2
        let r := min n (edge + 3)
        let sl := (fd.drop l).take (r - l)
        let tr := List.zipWith (pyBin fun u v => (u + v) / 2) sl (savgolP 5 2 sl)
        fd.take l ++ tr ++ fd.drop (l + tr.length)
      else fd)
    filtered

/-! ## The canonical SI formulas of the specification (§4.5)

Modelled from the spec: the SI-consistent reporting convention —
`charge_C = ∫ current_A dt_s` (current converted pA→A by `1e-12`),
`capacitance_F = |charge_C / (V1−V0)_V|` (voltage step converted mV→V by
`1e-3`), `capacitance_uF_per_cm2 = capacitance_F × 1e6 / cell_area_cm2` —
applied to the same raw integral the code computes.  These definitions
exist only for comparison with `calculateIntegral`; the code in the
repository does not implement them. -/

/-- Modelled from the spec: `charge_C`, the raw pA-by-seconds integral
converted by the pA→A factor `1e-12`. -/
def specChargeC (rawIntegral : ℚ) : ℚ := rawIntegral * (1 / 10 ^ 12)

/-- Modelled from the spec: `capacitance_F = |charge_C / (V1−V0)_V|` with
the voltage step converted mV→V. -/
def specCapacitanceF (rawIntegral deltaVmV : ℚ) : ℚ :=
  |specChargeC rawIntegral / (deltaVmV * (1 / 10 ^ 3))|

/-- Modelled from the spec:
`capacitance_uF_per_cm2 = capacitance_F × 1e6 / cell_area_cm2`. -/
def specCapacitanceUFCm2 (rawIntegral deltaVmV area : ℚ) : ℚ :=
  specCapacitanceF rawIntegral deltaVmV * 10 ^ 6 / area

/-! ## Concrete traces used by the theorems

All use the default parameters `n_cycles = 2, t1 = t2 = 100 ms, V0 = -80,
V1 = 100, V2 = 10, cell_area_cm2 = 1` and a uniform time base of step
`1/40 s`, so that `t1_samples = int(100 · 40 / 1000) = 4`. -/

/-- A 16-sample trace with a 7-sample plateau trough at depth −8: the single
detected cycle is the window `[4, 14)`, whose median and minimum are both
−8, so `normalize_signal`'s divisor `|min_val − baseline|` is exactly
zero. -/
def data16 : List ℚ := [0, 0, 0, -8, -8, -8, -8, -8, -8, -8, 0, 0, 0, 0, 0, 0]

/-- Uniform time base for `data16`, step `1/40` s. -/
def time16 : List ℚ := (List.range 16).map fun i => (i : ℚ) / 40

/-- Fresh processor on the degenerate trace. -/
def s16 : APState := mkState data16 time16 2 100 100 (-80) 100 10 1

/-- The processor state after baseline correction and cycle detection on
`data16`. -/
def st16 : APState := findCycles (baselineCorrection s16)

/-- A 20-sample trace with troughs of depth −10 at index 6 and −9 at
index 10: both pass the prominence threshold and are exactly `t1_samples =
4` apart, the minimum separation the `distance` condition admits. -/
def data20 : List ℚ :=
  [0, 0, 0, 0, 0, 0, -10, 0, 0, 0, -9, 0, 0, 0, 0, 0, 0, 0, 0, 0]

/-- Uniform time base for `data20`, step `1/40` s. -/
def time20 : List ℚ := (List.range 20).map fun i => (i : ℚ) / 40

/-- Fresh processor on the two-trough trace. -/
def s20 : APState := mkState data20 time20 2 100 100 (-80) 100 10 1

/-- A processor state holding one detected cycle of three constant 1 pA
samples over times 0, 1, 2 s (Simpson integral exactly 2 pA·s), with the
default parameters. -/
def sInt : APState :=
  { mkState [] [] 2 100 100 (-80) 100 10 1 with
    cycles := [[1, 1, 1]], cycle_times := [[0, 1, 2]], cycle_indices := [(0, 3)] }

/-- A processor state whose processed trace is 1300 constant samples (long
enough for the fixed purple slices). -/
def s1300 : APState :=
  { mkState [] [] 2 100 100 (-80) 100 10 1 with
    processed_data := some (List.replicate 1300 0) }

/-- A processor state whose processed trace has 100 samples (too short for
the fixed purple slices). -/
def s100 : APState :=
  { mkState [] [] 2 100 100 (-80) 100 10 1 with
    processed_data := some (List.replicate 100 0) }

/-! ## Shared lemmas -/

/-- A non-finite right operand makes any lifted float operation
non-finite. -/
theorem pyBin_none_right (f : ℚ → ℚ → ℚ) (x : PyF) : pyBin f x none = none := by
  cases x <;> rfl

set_option maxRecDepth 100000

/-! ## Claim C8 -/

/-- C8: for every processor state in which the detected cycle list is
empty, `normalize_signal` is a no-op: the whole state — the processed trace
included — is exactly unchanged, and the divisor built from the cycle set
is never formed. -/
theorem C8_normalize_noop (s : APState) (h : s.cycles = []) :
    normalizeSignal s = s := by
  unfold normalizeSignal
  rw [if_pos h]

/-- Witness for C8 at a concrete fresh processor. -/
theorem C8_witness : normalizeSignal s20 = s20 :=
  C8_normalize_noop s20 rfl

/-! ## Claim C4 -/

/-- C4 counterexample: on the concrete trace `data16` the detected cycle is
degenerate — its minimum equals the computed per-cycle baseline — and
`normalize_signal` does not raise: it performs the division by zero, and
every sample of the processed trace comes out non-finite (Python float
`inf`/NaN), refuting "raises a NumericError … never produces NaN or Inf".
-/
theorem C4_counterexample :
    st16.cycle_indices = [(4, 14)] ∧
    st16.cycles.map listMinQ = [nsBaseline st16] ∧
    normalizeSignalProcessedF st16 = List.replicate 16 none :=
  of_decide_eq_true (by with_unfolding_all rfl)

/-- C4 amended: for every state with a non-empty cycle list whose amplitude
equals the computed baseline, `normalize_signal` performs the division by
zero: the scale factor is non-finite and the whole processed trace becomes
non-finite (no NumericError is raised — the source has no such guard). -/
theorem C4_divzero_nonfinite (s : APState) (hc : s.cycles ≠ [])
    (hdeg : nsMinVal s - nsBaseline s = 0) :
    normalizeSignalProcessedF s =
      List.replicate (s.processed_data.getD []).length none := by
  unfold normalizeSignalProcessedF
  rw [if_neg hc]
  simp only [hdeg, abs_zero]
  simp [pyDiv, pyBin_none_right, pyBin, List.map_const']

/-- Witness for C4 at the `data16`-derived state. -/
theorem C4_witness :
    normalizeSignalProcessedF st16 =
      List.replicate (st16.processed_data.getD []).length none :=
  C4_divzero_nonfinite st16
    (of_decide_eq_true (by with_unfolding_all rfl))
    (of_decide_eq_true (by with_unfolding_all rfl))

/-! ## Claim C2 -/

/-- C2 evaluation: on the concrete trace `data20`, `analyze()` is *not* a
pure stateless transformation.  Both calls return the bare `None` produced
by the caught `AttributeError` (`calculate_orange_curve_logic` is
undefined), and `find_cycles` appends to the instance's cycle lists without
clearing them, so the second call runs on — and further mutates — state
carried over from the first: the cycle list doubles and the processed trace
differs from the first call's. -/
theorem C2_hidden_state_eval :
    (analyze s20).2 = none ∧ (analyze (analyze s20).1).2 = none ∧
    (analyze s20).1.cycles.length = 2 ∧
    (analyze (analyze s20).1).1.cycles.length = 4 ∧
    (analyze (analyze s20).1).1.processed_data ≠ (analyze s20).1.processed_data :=
  of_decide_eq_true (by with_unfolding_all rfl)

/-! ## Claim C3 -/

/-- C3 counterexample: on the concrete trace `data20` the derived-curves
stage raises (`AttributeError`: `calculate_orange_curve_logic` is called
but defined nowhere), and `analyze` swallows it, returning a bare `None`
with no stage context and no failure marker. -/
theorem C3_counterexample :
    exceptErr (analyzeRun s20).2 = some PyErr.attributeError ∧
    (analyze s20).2 = none :=
  of_decide_eq_true (by with_unfolding_all rfl)

/-- C3 amended: whenever a pipeline stage inside `analyze`'s `try:` body
raises, `analyze` catches the exception, logs it, and returns a bare `None`
indistinguishable from absence of data. -/
theorem C3_swallows_errors (s : APState) (e : PyErr)
    (h : exceptErr (analyzeRun s).2 = some e) : (analyze s).2 = none := by
  rcases hr : (analyzeRun s).2 with e' | o
  · show (match (analyzeRun s).2 with
      | Except.ok o => some o | Except.error _ => none) = none
    rw [hr]
  · rw [hr] at h
    simp [exceptErr] at h

/-- Witness for C3 at the `data20` trace. -/
theorem C3_witness : (analyze s20).2 = none :=
  C3_swallows_errors s20 PyErr.attributeError
    (of_decide_eq_true (by with_unfolding_all rfl))

/-! ## Claim C6 -/

/-- C6: for every processed trace, if its length exceeds 1227 the purple
curves are exactly the fixed slices `[828, 1028)` and `[1028, 1227)` of the
processed (orange) trace and both index pairs are stored as first-class
state; if its length is 1227 or less, both curves and both stored index
pairs are explicitly `None` (with a logged reason), never silently empty
arrays. -/
theorem C6_purple_curves (s : APState) (pd : List ℚ)
    (h : s.processed_data = some pd) :
    (1227 < pd.length →
      (calculatePurpleCurves s).purple_depol_curve = some (sliceQ pd 828 1028) ∧
      (calculatePurpleCurves s).purple_hyperpol_curve = some (sliceQ pd 1028 1227) ∧
      (calculatePurpleCurves s).depol_slice = some (828, 1028) ∧
      (calculatePurpleCurves s).hyperpol_slice = some (1028, 1227)) ∧
    (pd.length ≤ 1227 →
      (calculatePurpleCurves s).purple_depol_curve = none ∧
      (calculatePurpleCurves s).purple_hyperpol_curve = none ∧
      (calculatePurpleCurves s).depol_slice = none ∧
      (calculatePurpleCurves s).hyperpol_slice = none) := by
  by_cases hl : 1227 < pd.length
  · refine ⟨fun _ => ?_, fun h2 => absurd hl (by omega)⟩
    simp [calculatePurpleCurves, h, hl]
  · refine ⟨fun h2 => absurd h2 hl, fun _ => ?_⟩
    simp [calculatePurpleCurves, h, hl]

/-- Witness for C6: a 1300-sample processed trace gets the fixed slices, a
100-sample one gets explicit `None`s. -/
theorem C6_witness :
    (calculatePurpleCurves s1300).purple_depol_curve =
      some (sliceQ (List.replicate 1300 (0 : ℚ)) 828 1028) ∧
    (calculatePurpleCurves s1300).hyperpol_slice = some (1028, 1227) ∧
    (calculatePurpleCurves s100).purple_hyperpol_curve = none ∧
    (calculatePurpleCurves s100).depol_slice = none := by
  have h1 := (C6_purple_curves s1300 (List.replicate 1300 0) rfl).1 (by simp)
  have h2 := (C6_purple_curves s100 (List.replicate 100 0) rfl).2 (by simp)
  exact ⟨h1.1, h1.2.2.2, h2.2.1, h2.2.2.1⟩

/-! ## Claim C7 -/

/-- C7: a custom integration range supplied per polarity on a purple window
of length `L` — the start validated first, then the end, as the spinbox
handlers do — always resolves safely: the `-1` sentinel end resolves to the
last valid index `L−1`, both resolved bounds lie in `[0, L−1]`, and the
resolved start never exceeds the resolved end; resolution clamps rather
than raising or going out of bounds. -/
theorem C7_clamping (L : ℕ) (hL : 1 ≤ L) (rawS rawE ss se : ℤ)
    (hss : ss = validateStartPoint rawS (-1) ((L : ℤ) - 1))
    (hse : se = validateEndPoint rawE ss ((L : ℤ) - 1)) :
    (rawE = -1 → (effectiveIndices ss se ((L : ℤ) - 1)).2 = (L : ℤ) - 1) ∧
    0 ≤ (effectiveIndices ss se ((L : ℤ) - 1)).1 ∧
    (effectiveIndices ss se ((L : ℤ) - 1)).1 ≤ (effectiveIndices ss se ((L : ℤ) - 1)).2 ∧
    (effectiveIndices ss se ((L : ℤ) - 1)).2 ≤ (L : ℤ) - 1 := by
  subst hss hse
  have hL' : (1 : ℤ) ≤ (L : ℤ) := by exact_mod_cast hL
  unfold validateStartPoint validateEndPoint effectiveIndices
  dsimp only
  refine ⟨fun hE => ?_, ?_, ?_, ?_⟩ <;>
    [skip; skip; skip; skip] <;>
    first
      | (subst hE; split_ifs <;> omega)
      | (split_ifs <;> omega)

/-- Witness for C7: supplying `start_idx = -5` and `end_idx = 10000` on a
200-sample curve resolves to the in-bounds ordered pair `(0, 199)`. -/
theorem C7_witness :
    effectiveIndices (validateStartPoint (-5) (-1) 199)
        (validateEndPoint 10000 (validateStartPoint (-5) (-1) 199) 199) 199 =
      (0, 199) ∧
    0 ≤ (effectiveIndices (validateStartPoint (-5) (-1) ((200 : ℤ) - 1))
        (validateEndPoint 10000 (validateStartPoint (-5) (-1) ((200 : ℤ) - 1))
          ((200 : ℤ) - 1)) ((200 : ℤ) - 1)).1 :=
  ⟨of_decide_eq_true (by with_unfolding_all rfl),
    (C7_clamping 200 (by norm_num) (-5) 10000 _ _ rfl rfl).2.1⟩

/-! ## Claim C1 -/

/-- C1 counterexample: at a concrete one-cycle state (constant 1 pA over
0…2 s, `V1 − V0 = 180 mV`, area 1 cm²) `calculate_integral` reports the raw
Simpson integral `2` (formatted as "2.00 pA·ms") and the raw capacitance
`2/180/1 = 1/90` — not the SI-converted `charge_C = 2·10⁻¹²` and
`capacitance_uF_per_cm2 = 1/90000` the canonical convention prescribes. -/
theorem C1_counterexample :
    calculateIntegral sInt = .ok 2 (1 / 90) [(0, 3)] ∧
    (2 : ℚ) ≠ specChargeC 2 ∧
    (1 / 90 : ℚ) ≠ specCapacitanceUFCm2 2 (100 - -80) 1 :=
  of_decide_eq_true (by with_unfolding_all rfl)

/-- C1 amended: for every state with non-empty cycles (and a non-negative
raw capacitance, the code taking no absolute value), `calculate_integral`
reports the *non-converted* quantities: the average per-cycle Simpson
integral exactly as computed (pA against the time base, no pA→A factor) and
`avg/(V1−V0)/area` with the voltage step still in mV — i.e. `10¹²` times
the canonical `charge_C` and `10³` times the canonical
`capacitance_uF_per_cm2` of the specification. -/
theorem C1_raw_reporting (s : APState) (hc : s.cycles ≠ [])
    (hsgn : 0 ≤ rawAvgIntegral s / (s.V1 - s.V0)) :
    calculateIntegral s =
      .ok (rawAvgIntegral s)
        (rawAvgIntegral s / (s.V1 - s.V0) / s.cell_area_cm2) s.cycle_indices ∧
    rawAvgIntegral s = 10 ^ 12 * specChargeC (rawAvgIntegral s) ∧
    rawAvgIntegral s / (s.V1 - s.V0) / s.cell_area_cm2 =
      10 ^ 3 *
        specCapacitanceUFCm2 (rawAvgIntegral s) (s.V1 - s.V0) s.cell_area_cm2 := by
  refine ⟨?_, by unfold specChargeC; ring, ?_⟩
  · unfold calculateIntegral
    rw [if_neg hc]
  · unfold specCapacitanceUFCm2 specCapacitanceF specChargeC
    rcases eq_or_ne (s.V1 - s.V0) 0 with hV | hV
    · rw [hV]
      simp
    · have h1 : rawAvgIntegral s * (1 / 10 ^ 12) / ((s.V1 - s.V0) * (1 / 10 ^ 3)) =
          rawAvgIntegral s / (s.V1 - s.V0) * (1 / 10 ^ 9) := by
        field_simp
        ring
      rw [h1, abs_of_nonneg (by positivity)]
      ring

/-- Witness for C1 at the concrete one-cycle state. -/
theorem C1_witness :
    calculateIntegral sInt =
      .ok (rawAvgIntegral sInt)
        (rawAvgIntegral sInt / (sInt.V1 - sInt.V0) / sInt.cell_area_cm2)
        sInt.cycle_indices ∧
    rawAvgIntegral sInt = 10 ^ 12 * specChargeC (rawAvgIntegral sInt) :=
  ⟨(C1_raw_reporting sInt (of_decide_eq_true (by with_unfolding_all rfl))
      (of_decide_eq_true (by with_unfolding_all rfl))).1,
    (C1_raw_reporting sInt (of_decide_eq_true (by with_unfolding_all rfl))
      (of_decide_eq_true (by with_unfolding_all rfl))).2.1⟩

/-! ## Claim C10 -/

/-- `getD` of a constant list is that constant, in or out of range. -/
theorem getD_replicate (n i : ℕ) (a : α) : (List.replicate n a).getD i a = a := by
  induction n generalizing i with
  | zero => rfl
  | succ n ih => cases i <;> simp [List.replicate_succ, List.getD, ih]

/-- No index holds `true` in an all-`false` mask. -/
theorem maskIdx_replicate_false (n : ℕ) :
    maskIdx (List.replicate n false) true = [] := by
  unfold maskIdx
  rw [List.filter_eq_nil_iff]
  intro i _
  simp [getD_replicate]

/-- Boolean selection by an all-`false` mask is empty. -/
theorem maskSelect_replicate_false (l : List ℚ) (n : ℕ) :
    maskSelect l (List.replicate n false) = [] := by
  unfold maskSelect
  induction l generalizing n with
  | nil => simp
  | cons a l ih =>
    cases n with
    | zero => simp
    | succ n => simpa [List.replicate_succ] using ih n

/-- `zipWith` of a constant function is a constant list. -/
theorem zipWith_const (c : γ) (l1 : List α) (l2 : List β) :
    List.zipWith (fun _ _ => c) l1 l2 = List.replicate (min l1.length l2.length) c := by
  induction l1 generalizing l2 with
  | nil => simp
  | cons a l1 ih =>
    cases l2 with
    | nil => simp
    | cons b l2 =>
      have h : (l1.length + 1) ⊓ (l2.length + 1) = l1.length ⊓ l2.length + 1 := by
        omega
      simp [ih, h, List.replicate_succ]

/-- An all-`false` mask has no region edges. -/
theorem edges_replicate_false (n m : ℕ) :
    ((List.range m).filter fun i =>
      (List.replicate n false).getD i false != (List.replicate n false).getD (i + 1) false) = [] := by
  rw [List.filter_eq_nil_iff]
  intro i _
  simp [getD_replicate]

/-- C10: whenever the peak detector finds no positive and no negative event
(its two invocations return empty peak sets), `extract_add_filter`'s event
mask is empty, the reconstruction subtracts the mean of an empty selection —
NaN — and the returned array is NaN at every element rather than a smoothed
copy of the input.  The statement holds for *any* implementations of the
external Savitzky–Golay filter (length-preserving) and interpolator. -/
theorem C10_all_nan (detect : List ℚ → List ℕ × List ℚ)
    (savgolP : ℕ → ℕ → List PyF → List PyF)
    (interpF : List ℕ → List ℕ → List ℚ → List ℚ) (wl po : ℕ) (data : List ℚ)
    (hp : detect data = ([], []))
    (hv : detect (data.map Neg.neg) = ([], []))
    (hs : ∀ a b l, (savgolP a b l).length = l.length) :
    extractAddFilter detect savgolP interpF wl po data =
      List.replicate data.length none := by
  unfold extractAddFilter
  rw [hp, hv]
  simp only [List.zip_nil_left, addRegionToMask, List.foldl_nil,
    maskIdx_replicate_false, maskSelect_replicate_false, scatterAt,
    edges_replicate_false, pyMeanF, List.isEmpty_nil, if_pos,
    pyBin_none_right, zipWith_const, hs, List.length_map, List.length_zipWith,
    List.length_replicate, min_self, Nat.min_self]

/-- Witness for C10: a concrete empty detection on a three-sample trace
yields `[NaN, NaN, NaN]`. -/
theorem C10_witness :
    extractAddFilter (fun _ => ([], [])) (fun _ _ l => l) (fun _ _ _ => []) 51 3
      [1, 2, 3] = List.replicate 3 none :=
  C10_all_nan (fun _ => ([], [])) (fun _ _ l => l) (fun _ _ _ => []) 51 3
    [1, 2, 3] rfl rfl (fun _ _ _ => rfl)

/-! ## Claim C9 -/

/-- The two-point DFT in closed form. -/
theorem dft_pair (a b : ℂ) : dft [a, b] = [a + b, a - b] := by
  have hpi : Complex.exp (-((Real.pi : ℂ) * Complex.I)) = -1 := by
    rw [Complex.exp_neg, Complex.exp_pi_mul_I]
    norm_num
  unfold dft
  simp [List.range_succ, Finset.sum_range_succ, hpi]
  rw [show -(2 * (Real.pi : ℂ) * Complex.I) / 2 = -((Real.pi : ℂ) * Complex.I) by
    ring, hpi]
  ring

/-- The spectrum of the concrete input `[3, -1]`. -/
theorem dft_three_neg_one :
    dft ([(3 : ℝ), -1].map Complex.ofReal) = [((2 : ℝ) : ℂ), ((4 : ℝ) : ℂ)] := by
  rw [show ([(3 : ℝ), -1].map Complex.ofReal) = [((3 : ℝ) : ℂ), ((-1 : ℝ) : ℂ)] from rfl,
    dft_pair]
  push_cast
  norm_num

/-- The maximal magnitude of that spectrum. -/
theorem maxMagnitude_three_neg_one : maxMagnitude [(3 : ℝ), -1] = 4 := by
  unfold maxMagnitude
  rw [dft_three_neg_one]
  simp [listMaxR, Complex.abs_ofReal]
  norm_num

/-- C9 counterexample: on the input `[3, -1]` with threshold `3/5`, the DC
bin of the spectrum is `2` (non-zero), its magnitude `2` does not exceed
`threshold × max_magnitude = 12/5`, and the filter zeroes it — the DC bin is
*not* always retained. -/
theorem C9_counterexample :
    (dft ([(3 : ℝ), -1].map Complex.ofReal)).getD 0 0 = ((2 : ℝ) : ℂ) ∧
    ((2 : ℝ) : ℂ) ≠ 0 ∧
    (maskedSpectrum [(3 : ℝ), -1] (3 / 5)).getD 0 0 = 0 := by
  refine ⟨by rw [dft_three_neg_one]; rfl, by norm_num, ?_⟩
  unfold maskedSpectrum
  rw [dft_three_neg_one, maxMagnitude_three_neg_one]
  simp [Complex.abs_ofReal]
  norm_num

/-- C9 amended: for every input and threshold the filter keeps exactly the
bins whose magnitude strictly exceeds `threshold × max_magnitude` — the DC
bin receives no special treatment — and the output is the real part of the
inverse transform of the masked spectrum. -/
theorem C9_mask_no_dc (data : List ℝ) (t : ℝ) (k : ℕ) :
    applyFFTFilter data t = (idft (maskedSpectrum data t)).map Complex.re ∧
    (maskedSpectrum data t).getD k 0 =
      if t * maxMagnitude data < Complex.abs ((dft (data.map Complex.ofReal)).getD k 0)
      then (dft (data.map Complex.ofReal)).getD k 0 else 0 := by
  refine ⟨rfl, ?_⟩
  unfold maskedSpectrum
  rcases lt_or_ge k (dft (data.map Complex.ofReal)).length with hk | hk
  · obtain ⟨x, hx⟩ : ∃ x, (dft (data.map Complex.ofReal))[k]? = some x :=
      ⟨_, List.getElem?_eq_getElem hk⟩
    rw [List.getD_eq_getElem?_getD, List.getElem?_map, hx,
      List.getD_eq_getElem?_getD, hx]
    simp [mul_ite]
  · rw [List.getD_eq_getElem?_getD, List.getElem?_eq_none (by simpa using hk),
      List.getD_eq_getElem?_getD, List.getElem?_eq_none hk]
    simp

/-! ## Claim C5

The claim is about `find_cycles`; the lemmas below establish the two facts
the amended statement needs about the embedded `find_peaks`: its output is
strictly increasing, and any two returned peaks are at least `distance`
apart. -/

/-- The plateau scan never moves left. -/
theorem le_findAhead (x : List ℚ) (iMax : ℕ) (v : ℚ) :
    ∀ fuel j, j ≤ findAhead x iMax v fuel j := by
  intro fuel
  induction fuel with
  | zero => intro j; exact le_refl j
  | succ fuel ih =>
    intro j
    unfold findAhead
    split
    · exact le_trans (Nat.le_succ j) (ih (j + 1))
    · exact le_refl j

/-- Every local-maximum midpoint lies at or after the scan start. -/
theorem lmAux_lb (x : List ℚ) (iMax : ℕ) :
    ∀ fuel i m, m ∈ lmAux x iMax fuel i → i ≤ m := by
  intro fuel
  induction fuel with
  | zero => intro i m h; simp [lmAux] at h
  | succ fuel ih =>
    intro i m h
    unfold lmAux at h
    by_cases h1 : i < iMax
    · rw [if_pos h1] at h
      by_cases h2 : x.getD (i - 1) 0 < x.getD i 0
      · rw [if_pos h2] at h
        dsimp only at h
        have hia := le_findAhead x iMax (x.getD i 0) iMax (i + 1)
        by_cases h3 : x.getD (findAhead x iMax (x.getD i 0) iMax (i + 1)) 0 <
            x.getD i 0
        · rw [if_pos h3] at h
          rcases List.mem_cons.1 h with rfl | hm
          · omega
          · have := ih _ m hm
            omega
        · rw [if_neg h3] at h
          have := ih _ m h
          omega
      · rw [if_neg h2] at h
        have := ih _ m h
        omega
    · rw [if_neg h1] at h
      simp at h

/-- The local-maximum midpoints are strictly increasing. -/
theorem lmAux_pairwise (x : List ℚ) (iMax : ℕ) :
    ∀ fuel i, List.Pairwise (· < ·) (lmAux x iMax fuel i) := by
  intro fuel
  induction fuel with
  | zero => intro i; simp [lmAux]
  | succ fuel ih =>
    intro i
    unfold lmAux
    by_cases h1 : i < iMax
    · rw [if_pos h1]
      by_cases h2 : x.getD (i - 1) 0 < x.getD i 0
      · rw [if_pos h2]
        dsimp only
        have hia := le_findAhead x iMax (x.getD i 0) iMax (i + 1)
        by_cases h3 : x.getD (findAhead x iMax (x.getD i 0) iMax (i + 1)) 0 <
            x.getD i 0
        · rw [if_pos h3]
          refine List.Pairwise.cons (fun m hm => ?_) (ih _)
          have := lmAux_lb x iMax fuel _ m hm
          omega
        · rw [if_neg h3]
          exact ih _
      · rw [if_neg h2]
        exact ih _
    · rw [if_neg h1]
      simp

/-- `localMaxima` is strictly increasing. -/
theorem localMaxima_pairwise (x : List ℚ) :
    List.Pairwise (· < ·) (localMaxima x) :=
  lmAux_pairwise x (x.length - 1) x.length 1

/-- `getD` with default `false` survives clearing another entry. -/
theorem getD_set_false_true :
    ∀ (l : List Bool) (k i : ℕ),
      (l.set k false).getD i false = true → l.getD i false = true := by
  intro l
  induction l with
  | nil => intro k i h; simp at h
  | cons a l ih =>
    intro k i h
    cases k with
    | zero =>
      cases i with
      | zero => simp at h
      | succ i => simpa using h
    | succ k =>
      cases i with
      | zero => simpa using h
      | succ i =>
        simp only [List.set_cons_succ, List.getD_cons_succ] at h ⊢
        exact ih k i h

/-- A just-cleared in-range entry reads `false`. -/
theorem getD_set_self_false :
    ∀ (l : List Bool) (i : ℕ), i < l.length → (l.set i false).getD i false = false := by
  intro l
  induction l with
  | nil => intro i h; simp at h
  | cons a l ih =>
    intro i h
    cases i with
    | zero => simp
    | succ i =>
      simp only [List.set_cons_succ, List.getD_cons_succ]
      exact ih i (by simpa using h)

/-- The left scan only clears entries: any entry `true` afterwards was
`true` before. -/
theorem clearLeftAux_getD_true (peaks : List ℕ) (pj d : ℤ) :
    ∀ (k : ℕ) (keep : List Bool) (i : ℕ),
      (clearLeftAux peaks pj d k keep).getD i false = true →
      keep.getD i false = true := by
  intro k
  induction k with
  | zero => intro keep i h; exact h
  | succ k ih =>
    intro keep i h
    unfold clearLeftAux at h
    split at h
    · exact getD_set_false_true _ _ _ (ih _ i h)
    · exact h

/-- The right scan only clears entries. -/
theorem clearRightAux_getD_true (peaks : List ℕ) (pj d : ℤ) (m : ℕ) :
    ∀ (fuel k : ℕ) (keep : List Bool) (i : ℕ),
      (clearRightAux peaks pj d m fuel k keep).getD i false = true →
      keep.getD i false = true := by
  intro fuel
  induction fuel with
  | zero => intro k keep i h; exact h
  | succ fuel ih =>
    intro k keep i h
    unfold clearRightAux at h
    split at h
    · split at h
      · exact getD_set_false_true _ _ _ (ih _ _ i h)
      · exact h
    · exact h

/-- One main-loop iteration only clears entries. -/
theorem processPeak_getD_true (peaks : List ℕ) (d : ℤ) (keep : List Bool)
    (j i : ℕ) (h : (processPeak peaks d keep j).getD i false = true) :
    keep.getD i false = true := by
  unfold processPeak at h
  split at h
  · exact clearLeftAux_getD_true peaks _ d j keep i
      (clearRightAux_getD_true peaks _ d _ _ _ _ i h)
  · exact h

/-- The whole priority fold only clears entries. -/
theorem foldl_processPeak_getD_true (peaks : List ℕ) (d : ℤ) :
    ∀ (os : List ℕ) (keep : List Bool) (i : ℕ),
      (os.foldl (processPeak peaks d) keep).getD i false = true →
      keep.getD i false = true := by
  intro os
  induction os with
  | nil => intro keep i h; exact h
  | cons j os ih =>
    intro keep i h
    exact processPeak_getD_true peaks d keep j i (ih _ i h)

/-- The left scan preserves the mask's length. -/
theorem clearLeftAux_length (peaks : List ℕ) (pj d : ℤ) :
    ∀ (k : ℕ) (keep : List Bool),
      (clearLeftAux peaks pj d k keep).length = keep.length := by
  intro k
  induction k with
  | zero => intro keep; rfl
  | succ k ih =>
    intro keep
    unfold clearLeftAux
    split
    · rw [ih, List.length_set]
    · rfl

/-- The right scan preserves the mask's length. -/
theorem clearRightAux_length (peaks : List ℕ) (pj d : ℤ) (m : ℕ) :
    ∀ (fuel k : ℕ) (keep : List Bool),
      (clearRightAux peaks pj d m fuel k keep).length = keep.length := by
  intro fuel
  induction fuel with
  | zero => intro k keep; rfl
  | succ fuel ih =>
    intro k keep
    unfold clearRightAux
    split
    · split
      · rw [ih, List.length_set]
      · rfl
    · rfl

/-- One main-loop iteration preserves the mask's length. -/
theorem processPeak_length (peaks : List ℕ) (d : ℤ) (keep : List Bool) (j : ℕ) :
    (processPeak peaks d keep j).length = keep.length := by
  unfold processPeak
  split
  · rw [clearRightAux_length, clearLeftAux_length]
  · rfl

/-- The whole priority fold preserves the mask's length. -/
theorem foldl_processPeak_length (peaks : List ℕ) (d : ℤ) :
    ∀ (os : List ℕ) (keep : List Bool),
      (os.foldl (processPeak peaks d) keep).length = keep.length := by
  intro os
  induction os with
  | nil => intro keep; rfl
  | cons j os ih =>
    intro keep
    rw [List.foldl_cons, ih, processPeak_length]

/-- If every scanned neighbour up to and including `i` is closer than `d`,
the left scan reaches `i` and clears it. -/
theorem clearLeftAux_clears (peaks : List ℕ) (pj d : ℤ) :
    ∀ (k : ℕ) (keep : List Bool) (i : ℕ), i < k → i < keep.length →
      (∀ u, i ≤ u → u < k → pj - (peaks.getD u 0 : ℤ) < d) →
      (clearLeftAux peaks pj d k keep).getD i false = false := by
  intro k
  induction k with
  | zero => intro keep i h; omega
  | succ k ih =>
    intro keep i hik hil hall
    unfold clearLeftAux
    rw [if_pos (hall k (by omega) (by omega))]
    rcases eq_or_ne i k with rfl | hne
    · rcases hh : (clearLeftAux peaks pj d i (keep.set i false)).getD i false with hf | ht
      · rfl
      · have := clearLeftAux_getD_true peaks pj d i (keep.set i false) i hh
        rw [getD_set_self_false keep i hil] at this
        exact absurd this (by simp)
    · exact ih (keep.set k false) i (by omega) (by rwa [List.length_set])
        (fun u hu1 hu2 => hall u hu1 (by omega))

/-- If every scanned neighbour from `k` up to `i` is closer than `d`, the
right scan reaches `i` and clears it. -/
theorem clearRightAux_clears (peaks : List ℕ) (pj d : ℤ) (m : ℕ) :
    ∀ (fuel k : ℕ) (keep : List Bool) (i : ℕ), k ≤ i → i < m →
      i < keep.length → m - k ≤ fuel →
      (∀ u, k ≤ u → u ≤ i → (peaks.getD u 0 : ℤ) - pj < d) →
      (clearRightAux peaks pj d m fuel k keep).getD i false = false := by
  intro fuel
  induction fuel with
  | zero => intro k keep i h1 h2 h3 h4; omega
  | succ fuel ih =>
    intro k keep i hki him hil hfuel hall
    unfold clearRightAux
    rw [if_pos (show k < m by omega), if_pos (hall k le_rfl hki)]
    rcases eq_or_ne k i with rfl | hne
    · rcases hh : (clearRightAux peaks pj d m fuel (k + 1) (keep.set k false)).getD
          k false with hf | ht
      · rfl
      · have := clearRightAux_getD_true peaks pj d m fuel (k + 1)
          (keep.set k false) k hh
        rw [getD_set_self_false keep k hil] at this
        exact absurd this (by simp)
    · exact ih (k + 1) (keep.set k false) i (by omega) him
        (by rwa [List.length_set]) (by omega)
        (fun u hu1 hu2 => hall u (by omega) hu2)

/-- Processing a still-kept peak `j` clears any peak at smaller index whose
position is closer than `d` (peak positions being sorted). -/
theorem processPeak_clears_below (peaks : List ℕ) (d : ℤ)
    (hmono : ∀ u v, u ≤ v → v < peaks.length →
      peaks.getD u 0 ≤ peaks.getD v 0)
    (keep : List Bool) (i j : ℕ) (hij : i < j) (hjl : j < peaks.length)
    (hil : i < keep.length)
    (hkj : keep.getD j false = true)
    (hgap : (peaks.getD j 0 : ℤ) - peaks.getD i 0 < d) :
    (processPeak peaks d keep j).getD i false = false := by
  unfold processPeak
  rw [if_pos hkj]
  rcases hh : (clearRightAux peaks (peaks.getD j 0 : ℤ) d peaks.length
      peaks.length (j + 1) (clearLeftAux peaks (peaks.getD j 0 : ℤ) d j keep)).getD
      i false with hf | ht
  · rfl
  · have h1 := clearRightAux_getD_true peaks _ _ _ _ _ _ i hh
    have h2 : (clearLeftAux peaks (peaks.getD j 0 : ℤ) d j keep).getD i false =
        false := by
      refine clearLeftAux_clears peaks _ d j keep i hij hil fun u hu1 hu2 => ?_
      have := hmono i u hu1 (by omega)
      omega
    rw [h2] at h1
    exact absurd h1 (by simp)

/-- Processing a still-kept peak `j` clears any peak at larger index whose
position is closer than `d`. -/
theorem processPeak_clears_above (peaks : List ℕ) (d : ℤ)
    (hmono : ∀ u v, u ≤ v → v < peaks.length →
      peaks.getD u 0 ≤ peaks.getD v 0)
    (keep : List Bool) (i j : ℕ) (hij : j < i) (hil2 : i < peaks.length)
    (hil : i < keep.length)
    (hkj : keep.getD j false = true)
    (hgap : (peaks.getD i 0 : ℤ) - peaks.getD j 0 < d) :
    (processPeak peaks d keep j).getD i false = false := by
  unfold processPeak
  rw [if_pos hkj]
  refine clearRightAux_clears peaks _ d peaks.length peaks.length (j + 1) _ i
    (by omega) hil2 (by rwa [clearLeftAux_length]) (by omega)
    fun u hu1 hu2 => ?_
  have := hmono u i hu2 hil2
  omega

/-- Sorted peak positions read through `getD` are monotone. -/
theorem peaks_getD_mono (peaks : List ℕ)
    (hsort : List.Pairwise (· < ·) peaks) :
    ∀ u v, u ≤ v → v < peaks.length → peaks.getD u 0 ≤ peaks.getD v 0 := by
  intro u v huv hvl
  have hg : ∀ w (hw : w < peaks.length), peaks.getD w 0 = peaks.get ⟨w, hw⟩ := by
    intro w hw
    rw [List.getD_eq_getElem?_getD, List.getElem?_eq_getElem hw]
    rfl
  rcases eq_or_lt_of_le huv with rfl | hlt
  · exact le_refl _
  · rw [hg u (by omega), hg v hvl]
    exact le_of_lt (List.pairwise_iff_get.1 hsort ⟨u, by omega⟩ ⟨v, hvl⟩ hlt)

/-- Any two peaks surviving `_select_by_peak_distance` are at least
`distance` apart. -/
theorem selectGap (peaks : List ℕ) (pri : List ℚ) (d : ℤ)
    (hpl : pri.length = peaks.length)
    (hsort : List.Pairwise (· < ·) peaks)
    (i j : ℕ) (hij : i < j) (hjl : j < peaks.length)
    (hi : (selectByPeakDistance peaks pri d).getD i false = true)
    (hj : (selectByPeakDistance peaks pri d).getD j false = true) :
    (peaks.getD i 0 : ℤ) + d ≤ peaks.getD j 0 := by
  by_contra hgap
  push_neg at hgap
  have hmono := peaks_getD_mono peaks hsort
  have hj_mem : j ∈ (argsortQ pri).reverse := by
    rw [List.mem_reverse]
    unfold argsortQ
    rw [(List.perm_insertionSort _ (List.range pri.length)).mem_iff,
      List.mem_range, hpl]
    exact hjl
  obtain ⟨o₁, o₂, ho⟩ := List.append_of_mem hj_mem
  have hfold : selectByPeakDistance peaks pri d =
      o₂.foldl (processPeak peaks d)
        (processPeak peaks d (o₁.foldl (processPeak peaks d)
          (List.replicate peaks.length true)) j) := by
    unfold selectByPeakDistance
    rw [ho, List.foldl_append, List.foldl_cons]
  set K := o₁.foldl (processPeak peaks d) (List.replicate peaks.length true)
    with hK
  have hKlen : K.length = peaks.length := by
    rw [hK, foldl_processPeak_length, List.length_replicate]
  have hKj : K.getD j false = true := by
    rw [hfold] at hj
    exact processPeak_getD_true peaks d K j j
      (foldl_processPeak_getD_true peaks d o₂ _ j hj)
  have hclear : (processPeak peaks d K j).getD i false = false :=
    processPeak_clears_below peaks d hmono K i j hij hjl (by omega) hKj
      (by omega)
  rw [hfold] at hi
  have := foldl_processPeak_getD_true peaks d o₂ _ i hi
  rw [hclear] at this
  exact absurd this (by simp)

/-- Every element of a boolean-mask selection corresponds to a kept
index. -/
theorem maskFilter_mem :
    ∀ (ps : List ℕ) (ks : List Bool) (q : ℕ), q ∈ maskFilter ps ks →
      ∃ t, t < ps.length ∧ ks.getD t false = true ∧ ps.getD t 0 = q := by
  intro ps
  induction ps with
  | nil => intro ks q h; simp [maskFilter] at h
  | cons p ps ih =>
    intro ks q h
    cases ks with
    | nil => simp [maskFilter] at h
    | cons b bs =>
      unfold maskFilter at h
      by_cases hb : b = true
      · rw [hb, if_pos rfl] at h
        rcases List.mem_cons.1 h with rfl | hm
        · exact ⟨0, by simp, by simp [hb], rfl⟩
        · obtain ⟨t, ht1, ht2, ht3⟩ := ih bs q hm
          exact ⟨t + 1, by simpa using ht1, by simpa using ht2, by simpa using ht3⟩
      · rw [if_neg (by simpa using hb)] at h
        obtain ⟨t, ht1, ht2, ht3⟩ := ih bs q h
        exact ⟨t + 1, by simpa using ht1, by simpa using ht2, by simpa using ht3⟩

/-- A relation holding between any two kept indices holds pairwise on the
boolean-mask selection. -/
theorem maskFilter_pairwise {R : ℕ → ℕ → Prop} :
    ∀ (ps : List ℕ) (ks : List Bool),
      (∀ t1 t2, t1 < t2 → t2 < ps.length → ks.getD t1 false = true →
        ks.getD t2 false = true → R (ps.getD t1 0) (ps.getD t2 0)) →
      List.Pairwise R (maskFilter ps ks) := by
  intro ps
  induction ps with
  | nil => intro ks h; simp [maskFilter]
  | cons p ps ih =>
    intro ks h
    cases ks with
    | nil => simp [maskFilter]
    | cons b bs =>
      unfold maskFilter
      by_cases hb : b = true
      · rw [hb, if_pos rfl]
        refine List.Pairwise.cons (fun q hq => ?_) ?_
        · obtain ⟨t, ht1, ht2, ht3⟩ := maskFilter_mem ps bs q hq
          have hr := h 0 (t + 1) (by omega) (by simpa using ht1)
            (by simp [hb]) (by simpa using ht2)
          rw [List.getD_cons_zero, List.getD_cons_succ, ht3] at hr
          exact hr
        · refine ih bs fun t1 t2 h1 h2 h3 h4 => ?_
          have hr := h (t1 + 1) (t2 + 1) (by omega) (by simpa using h2)
            (by simpa using h3) (by simpa using h4)
          rw [List.getD_cons_succ, List.getD_cons_succ] at hr
          exact hr
      · rw [if_neg (by simpa using hb)]
        refine ih bs fun t1 t2 h1 h2 h3 h4 => ?_
        have hr := h (t1 + 1) (t2 + 1) (by omega) (by simpa using h2)
          (by simpa using h3) (by simpa using h4)
        rw [List.getD_cons_succ, List.getD_cons_succ] at hr
        exact hr

/-- Any two peaks returned by the embedded `find_peaks` are at least
`distance` apart (in particular the list is strictly increasing once
`1 ≤ d`). -/
theorem findPeaksPD_pairwise_gap (x : List ℚ) (var : ℚ) (d : ℤ) :
    List.Pairwise (fun a b : ℕ => (a : ℤ) + d ≤ b) (findPeaksPD x var d) := by
  unfold findPeaksPD
  refine List.Pairwise.filter _ ?_
  refine maskFilter_pairwise _ _ fun t1 t2 h1 h2 h3 h4 => ?_
  exact selectGap (localMaxima x) ((localMaxima x).map (x.getD · 0)) d
    (by rw [List.length_map]) (localMaxima_pairwise x) t1 t2 h1 h2 h3 h4

/-- C5 counterexample: on the concrete trace `data20` (uniform sampling,
`t1_samples = 4`, two troughs four samples apart, both detected),
`find_cycles` returns the windows `[4, 14)` and `[8, 18)` — exactly
`n_cycles = 2` of them, in increasing start order, but *overlapping* on
`[8, 14)`, refuting "pairwise non-overlapping". -/
theorem C5_counterexample :
    (findCycles (baselineCorrection s20)).cycle_indices = [(4, 14), (8, 18)] ∧
    ¬ List.Pairwise (fun w1 w2 : ℕ × ℕ => w1.2 ≤ w2.1)
      (findCycles (baselineCorrection s20)).cycle_indices := by
  have heq : (findCycles (baselineCorrection s20)).cycle_indices =
      [(4, 14), (8, 18)] := of_decide_eq_true (by with_unfolding_all rfl)
  refine ⟨heq, fun h => ?_⟩
  rw [heq] at h
  have := (List.pairwise_cons.1 h).1 (8, 18) (by simp)
  simp at this

/-- C5 amended: for any state with uniform sampling in which at least
`n_cycles` troughs are detected (and `t1_samples ≥ 1`, as SciPy requires of
`distance`), `find_cycles` produces exactly `n_cycles` windows, each being
`[peak − t1_samples/2, peak + 2·t1_samples)` clamped to the trace bounds,
ordered by strictly increasing start index.  The windows may *overlap*:
consecutive detected troughs are only guaranteed `t1_samples` apart, while a
window spans `2.5 × t1_samples`. -/
theorem C5_find_cycles_windows (s : APState) (pd : List ℚ)
    (hpd : s.processed_data = some pd)
    (hfresh : s.cycle_indices = [])
    (ht : 1 ≤ t1Samples s)
    (hn : s.n_cycles ≤
      (findPeaksPD (pd.map Neg.neg) (varQ pd) (t1Samples s : ℤ)).length) :
    (findCycles s).cycle_indices =
      ((findPeaksPD (pd.map Neg.neg) (varQ pd) (t1Samples s : ℤ)).take
        s.n_cycles).map (cycleWindow pd.length (t1Samples s)) ∧
    (findCycles s).cycle_indices.length = s.n_cycles ∧
    List.Pairwise (fun w1 w2 : ℕ × ℕ => w1.1 < w2.1)
      (findCycles s).cycle_indices := by
  have heq : (findCycles s).cycle_indices =
      ((findPeaksPD (pd.map Neg.neg) (varQ pd) (t1Samples s : ℤ)).take
        s.n_cycles).map (cycleWindow pd.length (t1Samples s)) := by
    unfold findCycles
    simp only [hpd, Option.getD_some, hfresh, List.nil_append]
  refine ⟨heq, ?_, ?_⟩
  · rw [heq, List.length_map, List.length_take]
    omega
  · rw [heq, List.pairwise_map]
    have hgap := findPeaksPD_pairwise_gap (pd.map Neg.neg) (varQ pd)
      (t1Samples s : ℤ)
    have htake := hgap.sublist (List.take_sublist s.n_cycles _)
    refine htake.imp fun {a b} hab => ?_
    unfold cycleWindow
    dsimp only
    omega

/-- Witness for C5 at the `data20` trace: two troughs are detected,
`n_cycles = 2` windows come back, in increasing start order. -/
theorem C5_witness :
    (findCycles (baselineCorrection s20)).cycle_indices.length =
      (baselineCorrection s20).n_cycles ∧
    List.Pairwise (fun w1 w2 : ℕ × ℕ => w1.1 < w2.1)
      (findCycles (baselineCorrection s20)).cycle_indices :=
  (C5_find_cycles_windows (baselineCorrection s20) data20
    (of_decide_eq_true (by with_unfolding_all rfl))
    (of_decide_eq_true (by with_unfolding_all rfl))
    (of_decide_eq_true (by with_unfolding_all rfl))
    (of_decide_eq_true (by with_unfolding_all rfl))).2

end Datachamo
